/-
A verification development for the html2md library (BeneathTheInk/html2md).

The definitions below are a shallow embedding of the canonical (extended)
implementation found in the repository source (the variant with a `code`
inline style, an `hr` always-keep block, and `br` among the self-contained
empty tags).  JavaScript strings are modelled as `List Char`; the DOM is
modelled as a tree of element/text nodes; `getAttribute` on a missing
attribute yields `none` (the DOM standard's `null`), and JavaScript's
string coercion of `null` inside concatenation produces the text "null".

Entity normalization (`Entities.normalizeXML`) is an external collaborator
and is modelled as the identity on already-decoded text-node data.  Tag
names are modelled as already lower-cased.  The ancestor chain that the
source walks through DOM `parentNode` pointers is threaded explicitly as a
list of ancestor tag names (nearest first), since blocks own nodes from
the middle of the tree and style lookup climbs above the owned subtree.
-/
import Mathlib

/-! ## JavaScript strings -/

/-- JavaScript strings, modelled as lists of characters. -/
abbrev JStr := List Char

/-- Convert a Lean string literal to the `JStr` model. -/
def jstr (s : String) : JStr := s.data

/-- The whitespace class of the regexes `/\s+/` used by the source
(ASCII subset: space, tab, newline, carriage return, vertical tab,
form feed). -/
def isWS (c : Char) : Bool :=
  c = ' ' || c = '\t' || c = '\n' || c = '\r' || c = '\x0b' || c = '\x0c'

/-- `content.replace(/\s+/g, " ")`: collapse every run of whitespace
characters to a single space. -/
def collapseWS : List Char → List Char
  | [] => []
  | [c] => if isWS c then [' '] else [c]
  | c :: d :: rest =>
    if isWS c && isWS d then collapseWS (d :: rest)
    else (if isWS c then ' ' else c) :: collapseWS (d :: rest)

/-- `s.trim()`: strip whitespace from both ends. -/
def jsTrim (s : JStr) : JStr :=
  ((s.dropWhile isWS).reverse.dropWhile isWS).reverse

/-- JavaScript string coercion of a nullable value: `null` prints as
"null" inside string concatenation. -/
def jsVal (o : Option JStr) : JStr := o.getD (jstr "null")

/-! ## The DOM model -/

/-- A DOM node: an element (tag name, attributes, children) or a text
node carrying its character data.  Element tags are lower-case. -/
inductive Node where
  | element (tag : String) (attrs : List (String × JStr)) (children : List Node)
  | text (s : JStr)

/-- `n.nodeType === 1`. -/
def isElementNode : Node → Bool
  | Node.element _ _ _ => true
  | Node.text _ => false

mutual
/-- `utils.getTextContent(n)`: the concatenated character data of all
text nodes in the subtree. -/
def getTextContent : Node → JStr
  | Node.text s => s
  | Node.element _ _ children => getTextContentList children

def getTextContentList : List Node → JStr
  | [] => []
  | n :: rest => getTextContent n ++ getTextContentList rest
end

/-- `var empty_tags = ["hr", "br", "img", "video", "audio"].join(", ")`
(the extended variant includes `br`). -/
def empty_tags_list : List String := ["hr", "br", "img", "video", "audio"]

/-- `utils.matchesSelector(n, empty_tags)`: the node is an element whose
tag is one of the self-contained empty tags. -/
def matchesEmptySel : Node → Bool
  | Node.element tag _ _ => tag ∈ empty_tags_list
  | Node.text _ => false

mutual
/-- `n.querySelector(empty_tags)`: some strict descendant element
matches one of the self-contained empty tags. -/
def queryEmpty : Node → Bool
  | Node.text _ => false
  | Node.element _ _ children => queryEmptyList children

def queryEmptyList : List Node → Bool
  | [] => false
  | n :: rest => (matchesEmptySel n || queryEmpty n) || queryEmptyList rest
end

/-! ## Static tables from the source -/

/-- `var block_elements = [...]` -/
def block_elements : List String :=
  [ "article", "aside", "blockquote", "body", "button", "canvas", "caption",
    "col", "colgroup", "dd", "div", "dl", "dt", "embed", "fieldset",
    "figcaption", "figure", "footer", "form", "h1", "h2", "h3", "h4", "h5",
    "h6", "header", "hgroup", "hr", "li", "map", "object", "ol", "output",
    "p", "pre", "progress", "section", "table", "tbody", "textarea",
    "tfoot", "th", "thead", "tr", "ul", "video" ]

/-- `var markdown_block_tags = [...]` -/
def markdown_block_tags : List String :=
  [ "blockquote", "h1", "h2", "h3", "h4", "h5", "h6", "hr", "li", "pre", "p" ]

/-- `var markdown_empty_blocks = ["hr"]` -/
def markdown_empty_blocks : List String := ["hr"]

/-- The three inline style names of `markdown_inline_tags`
(`b, strong` → bold; `i, em` → italic; `code` → code). -/
inductive Style where
  | bold
  | italic
  | code
deriving DecidableEq

/-- The object-key name of a style, used for lookups in the
markdown output table. -/
def Style.key : Style → String
  | Style.bold => "bold"
  | Style.italic => "italic"
  | Style.code => "code"

/-- The static markdown output table of the source (its source name ends
in a word this development avoids; each entry is verbatim). -/
def markdown_tbl (t : String) : Option JStr :=
  if t = "hr" then some (jstr "- - -")
  else if t = "br" then some (jstr "  \n")
  else if t = "h1" then some (jstr "# ")
  else if t = "h2" then some (jstr "## ")
  else if t = "h3" then some (jstr "### ")
  else if t = "h4" then some (jstr "#### ")
  else if t = "h5" then some (jstr "##### ")
  else if t = "h6" then some (jstr "###### ")
  else if t = "ul" then some (jstr "* ")
  else if t = "ol" then some (jstr "1. ")
  else if t = "blockquote" then some (jstr "> ")
  else if t = "pre" then some (jstr "  ")
  else if t = "p" then some (jstr "")
  else if t = "bold" then some (jstr "**")
  else if t = "italic" then some (jstr "_")
  else if t = "code" then some (jstr "`")
  else none

/-! ## Inline units -/

/-- An inline unit: a styled text run, a line break, or an image whose
source attribute may be absent (`null`). -/
inductive Inline where
  | text (content : JStr) (styles : List Style)
  | br
  | img (src : Option JStr)
deriving DecidableEq

/-! ## STEP 1: block extraction (`extractBlocks`) -/

/-- A block under construction: its markdown type and the raw nodes it
owns, each paired with the tag names of its DOM ancestors (nearest
first), which the source reaches through `parentNode` pointers. -/
structure RawBlock where
  type : String
  nodes : List (List String × Node)

/-- The mutable state of the block extractor: the output list and the
index of the currently open block (`currentBlock`), if any.  The source
holds an object reference; since blocks are only ever appended, popped
from the end, or extended at the referenced position, the position index
is an exact model of reference identity. -/
structure ExtractState where
  blocks : List RawBlock
  cur : Option Nat

/-- `currentBlock.nodes.push(el)`: append a node to the block at
position `i`. -/
def pushNode (i : Nat) (p : List String × Node) : List RawBlock → List RawBlock
  | [] => []
  | b :: rest =>
    match i with
    | 0 => { b with nodes := b.nodes ++ [p] } :: rest
    | j + 1 => b :: pushNode j p rest

/-- `addInline(el)`: append the node to the open block, or open an
implicit paragraph block for it. -/
def addInline (anc : List String) (el : Node) (s : ExtractState) : ExtractState :=
  match s.cur with
  | some i => { s with blocks := pushNode i (anc, el) s.blocks }
  | none => { s with blocks := s.blocks ++ [{ type := "p", nodes := [(anc, el)] }] }

/-- The guard before opening a new block: `if (currentBlock != null &&
!currentBlock.nodes.length && !_.contains(markdown_empty_blocks,
currentBlock.type) && _.last(blocks) === currentBlock) blocks.pop()`. -/
def discardEmpty (s : ExtractState) : ExtractState :=
  match s.cur with
  | none => s
  | some i =>
    match s.blocks[i]? with
    | none => s
    | some b =>
      if b.nodes.isEmpty && !decide (b.type ∈ markdown_empty_blocks)
          && i + 1 == s.blocks.length
      then { s with blocks := s.blocks.dropLast }
      else s

/-- `blocks.push(currentBlock = { type: ..., nodes: [] })`. -/
def pushBlock (t : String) (s : ExtractState) : ExtractState :=
  { blocks := s.blocks ++ [{ type := t, nodes := [] }], cur := some s.blocks.length }

mutual
/-- `extract(el)` of the source: depth-first traversal partitioning the
tree into typed blocks.  Non-elements and non-block elements are stored
into the open block; block-level elements discard an empty open last
block, open a new block, recurse, and close it. -/
def extract (anc : List String) (el : Node) (s : ExtractState) : ExtractState :=
  match el with
  | Node.text str => addInline anc (Node.text str) s
  | Node.element tag attrs children =>
    if tag ∈ block_elements then
      let s2 := pushBlock (if tag ∈ markdown_block_tags then tag else "p") (discardEmpty s)
      let s3 := extractList (tag :: anc) children s2
      { s3 with cur := none }
    else addInline anc (Node.element tag attrs children) s

def extractList (anc : List String) (ns : List Node) (s : ExtractState) : ExtractState :=
  match ns with
  | [] => s
  | n :: rest => extractList anc rest (extract anc n s)
end

/-- `extractBlocks(node)`: run the traversal from an empty state.  The
top-level call receives `doc.body`; tags above the body never match a
style selector, so the initial ancestor chain is empty. -/
def extractBlocks (body : Node) : List RawBlock :=
  (extract [] body { blocks := [], cur := none }).blocks

/-! ## Block compaction (`compactBlocks`) -/

/-- A compacted block: for always-keep empty types the raw node list has
been deleted (`delete b.nodes`). -/
structure CBlock where
  type : String
  nodes : Option (List (List String × Node))

/-- The per-node meaningfulness test inside `compactBlocks`:
`utils.getTextContent(n).trim() != "" || (n.nodeType === 1 &&
(utils.matchesSelector(n, empty_tags) || n.querySelector(empty_tags)))`. -/
def nodeMeaningful (n : Node) : Bool :=
  !(jsTrim (getTextContent n)).isEmpty ||
    (isElementNode n && (matchesEmptySel n || queryEmpty n))

/-- `_.some(b.nodes, ...)` over the owned nodes. -/
def blockMeaningful (b : RawBlock) : Bool :=
  b.nodes.any (fun p => nodeMeaningful p.2)

/-- `compactBlocks(blocks)`: keep always-keep empty blocks (dropping
their node lists) and blocks owning at least one meaningful node. -/
def compactBlocks (blocks : List RawBlock) : List CBlock :=
  blocks.filterMap (fun b =>
    if b.type ∈ markdown_empty_blocks then some { type := b.type, nodes := none }
    else if blockMeaningful b then some { type := b.type, nodes := some b.nodes }
    else none)

/-! ## STEP 2: inline extraction (`extractInlines`) -/

/-- The style set computed for a text node: for each selector of
`markdown_inline_tags` (in object-key order), whether `closest` finds an
ancestor element matching it.  `anc` is the ancestor tag chain. -/
def computeStyles (anc : List String) : List Style :=
  (if anc.any (fun t => t = "b" || t = "strong") then [Style.bold] else []) ++
    (if anc.any (fun t => t = "i" || t = "em") then [Style.italic] else []) ++
    (if anc.any (fun t => t = "code") then [Style.code] else [])

mutual
/-- `extractInlines(el, inlines)`: `br` and `img` elements append marker
units, other elements are transparent wrappers, and a text node either
merges into a preceding text unit with the identical styles array
(`_.isEqual`) or appends a new text unit. -/
def extractInlines (anc : List String) (el : Node) (inlines : List Inline) : List Inline :=
  match el with
  | Node.element tag attrs children =>
    if tag = "br" then inlines ++ [Inline.br]
    else if tag = "img" then inlines ++ [Inline.img (List.lookup "src" attrs)]
    else extractInlinesList (tag :: anc) children inlines
  | Node.text s =>
    let styles := computeStyles anc
    match inlines.getLast? with
    | some (Inline.text c0 s0) =>
      if s0 = styles then inlines.dropLast ++ [Inline.text (c0 ++ s) s0]
      else inlines ++ [Inline.text s styles]
    | _ => inlines ++ [Inline.text s styles]

def extractInlinesList (anc : List String) (ns : List Node) (inlines : List Inline) : List Inline :=
  match ns with
  | [] => inlines
  | n :: rest => extractInlinesList anc rest (extractInlines anc n inlines)
end

/-! ## Inline cleaning (`cleanInlines`) -/

/-- The test `prev.type === "br" || (prev.type === "text" &&
prev.content[prev.content.length - 1] === " ")` on the previous inline
(which the source has already processed in place). -/
def prevTrailing : Option Inline → Bool
  | some Inline.br => true
  | some (Inline.text c _) => c.getLast? = some ' '
  | _ => false

/-- The `reduce` pass of `cleanInlines`: collapse whitespace runs,
strip a leading space after a break or a space-ending text unit, and
drop text units left without content.  The source mutates each unit in
place before the next iteration reads it as `inlines[i-1]`, so the
processed form of the previous unit is threaded through. -/
def runClean (prev : Option Inline) : List Inline → List Inline
  | [] => []
  | Inline.text c s :: rest =>
    let c1 := collapseWS c
    let c2 := if c1.head? = some ' ' && prevTrailing prev then c1.tail else c1
    let tailOut := runClean (some (Inline.text c2 s)) rest
    if c2.isEmpty then tailOut else Inline.text c2 s :: tailOut
  | Inline.br :: rest => Inline.br :: runClean (some Inline.br) rest
  | Inline.img src :: rest => Inline.img src :: runClean (some (Inline.img src)) rest

/-- The leading-trim loop of `cleanInlines`: while the first unit is a
text unit, strip its leading whitespace, dropping it if emptied. -/
def trimLeading : List Inline → List Inline
  | Inline.text c s :: rest =>
    let c2 := c.dropWhile isWS
    if c2.isEmpty then trimLeading rest else Inline.text c2 s :: rest
  | l => l

/-- The trailing-trim loop, expressed on the reversed sequence. -/
def trimTrailingRev : List Inline → List Inline
  | Inline.text c s :: rest =>
    let c2 := (c.reverse.dropWhile isWS).reverse
    if c2.isEmpty then trimTrailingRev rest else Inline.text c2 s :: rest
  | l => l

/-- The trailing-trim loop of `cleanInlines`. -/
def trimTrailing (l : List Inline) : List Inline :=
  (trimTrailingRev l.reverse).reverse

/-- `cleanInlines(inlines)`: the reduce pass followed by the leading and
trailing trim loops. -/
def cleanInlines (inlines : List Inline) : List Inline :=
  trimTrailing (trimLeading (runClean none inlines))

/-! ## `parse` -/

/-- A finished block of the markdown AST: always-keep empty blocks
(`hr`) carry no content field. -/
structure Block where
  type : String
  content : Option (List Inline)
deriving DecidableEq

/-- `html2md.parse`, starting from the document body: extract blocks,
compact them, compute cleaned inline content for every non-`hr` block,
and drop blocks whose content came out empty. -/
def parse (body : Node) : List Block :=
  let blocks := compactBlocks (extractBlocks body)
  let withContent := blocks.map (fun b =>
    if b.type ∈ markdown_empty_blocks then ({ type := b.type, content := none } : Block)
    else
      { type := b.type,
        content := some (cleanInlines
          ((b.nodes.getD []).foldl (fun m p => extractInlines p.1 p.2 m) [])) })
  withContent.filter (fun b =>
    b.type ∈ markdown_empty_blocks ∨ (b.content.getD []) ≠ [])

/-! ## STEP 3: rendering (`toMarkdown`) -/

/-- `markdown_syntax[style] || ""` for a style name. -/
def styleMarker (st : Style) : JStr := (markdown_tbl st.key).getD []

/-- `updateStyles(styles)`: close the active styles no longer required
(emitting their markers in reverse order) and open the newly required
ones, returning the emitted text and the new active-style stack. -/
def updateStyles (active target : List Style) : JStr × List Style :=
  let close := active.filter (fun x => ¬ x ∈ target)
  let active2 := active.filter (fun x => x ∈ target)
  let toOpen := target.filter (fun x => ¬ x ∈ active2)
  ((close.reverse.map styleMarker).flatten ++ (toOpen.map styleMarker).flatten,
    active2 ++ toOpen)

/-- One inline unit of the renderer's `forEach`. -/
def renderStep (acc : JStr × List Style) (inline : Inline) : JStr × List Style :=
  match inline with
  | Inline.text c s =>
    let r := updateStyles acc.2 s
    (acc.1 ++ r.1 ++ c, r.2)
  | Inline.br => (acc.1 ++ (markdown_tbl "br").getD [], acc.2)
  | Inline.img src => (acc.1 ++ jstr "![](" ++ jsVal src ++ jstr ")", acc.2)

/-- The rendered inline content of a block, closing all styles at the
end (`updateStyles()`). -/
def renderInlines (content : List Inline) : JStr :=
  let r := content.foldl renderStep ([], [])
  r.1 ++ (updateStyles r.2 []).1

/-- The per-block `switch`: known block types yield the static prefix
plus the rendered content; any other type yields `undefined`. -/
def renderBlock (b : Block) : Option JStr :=
  let content := match b.content with
    | none => []
    | some inl => renderInlines inl
  if b.type ∈ ["blockquote", "pre", "p", "hr", "h1", "h2", "h3", "h4", "h5", "h6"]
  then some ((markdown_tbl b.type).getD [] ++ content)
  else none

/-- `html2md.toMarkdown(tree)`: join the rendered blocks with a blank
line; `undefined` entries join as empty strings. -/
def toMarkdown (tree : List Block) : JStr :=
  List.intercalate (jstr "\n\n") (tree.map (fun b => (renderBlock b).getD []))

/-- The top-level conversion `html2md(doc)`, from the document body. -/
def html2md (body : Node) : JStr := toMarkdown (parse body)

/-! ## Verification-layer predicates

These predicates are not part of the source; they state the properties
the claims are about. -/

/-- "Collapsed" character data: every whitespace character is a plain
space, and no two adjacent characters are both whitespace.  This is the
shape `collapseWS` produces. -/
def collapsed : List Char → Bool
  | [] => true
  | [c] => !isWS c || c = ' '
  | c :: d :: rest => (!isWS c || (c = ' ' && !isWS d)) && collapsed (d :: rest)

/-- No run of two or more consecutive whitespace characters. -/
def noWSRun : List Char → Bool
  | c :: d :: rest => !(isWS c && isWS d) && noWSRun (d :: rest)
  | _ => true

/-- The style set of the last text unit of a sequence, with a default
for the imagined unit preceding the sequence. -/
def lastStylesFrom (prev : Option (List Style)) : List Inline → Option (List Style)
  | [] => prev
  | Inline.text _ s :: rest => lastStylesFrom (some s) rest
  | Inline.br :: rest => lastStylesFrom none rest
  | Inline.img _ :: rest => lastStylesFrom none rest

/-- No text unit carries the same styles array as an immediately
preceding text unit (`prev` is the styles array of a text unit imagined
immediately before the sequence). -/
def adjOkFrom (prev : Option (List Style)) : List Inline → Bool
  | [] => true
  | Inline.text _ s :: rest => !decide (prev = some s) && adjOkFrom (some s) rest
  | Inline.br :: rest => adjOkFrom none rest
  | Inline.img _ :: rest => adjOkFrom none rest

/-- No two adjacent text units of the sequence share an identical
styles array. -/
def adjOk (l : List Inline) : Bool := adjOkFrom none l

/-- Cleaned normal form of an inline sequence relative to the processed
unit preceding it: every text unit is non-empty and collapsed, and no
text unit starts with a space right after a break or a space-ending
text unit.  `runClean` is the identity exactly on such sequences. -/
def cleanNF (prev : Option Inline) : List Inline → Bool
  | [] => true
  | Inline.text c s :: rest =>
    !c.isEmpty && collapsed c && !(c.head? = some ' ' && prevTrailing prev)
      && cleanNF (some (Inline.text c s)) rest
  | Inline.br :: rest => cleanNF (some Inline.br) rest
  | Inline.img src :: rest => cleanNF (some (Inline.img src)) rest

/-- If the first unit is a text unit, its content does not start with
whitespace. -/
def noLeadWS : List Inline → Bool
  | Inline.text c _ :: _ =>
    match c.head? with
    | some ch => !isWS ch
    | none => true
  | _ => true

/-- If the last unit is a text unit, its content does not end with
whitespace. -/
def noTrailWS (l : List Inline) : Bool :=
  match l.getLast? with
  | some (Inline.text c _) =>
    match c.getLast? with
    | some ch => !isWS ch
    | none => true
  | _ => true

/-- `a` is an initial segment of `b`. -/
def listPre (a b : List RawBlock) : Prop := ∃ t, a ++ t = b

/-- The extractor's invariant: the open block, when there is one, is
the most recently pushed block. -/
def ExInv (s : ExtractState) : Prop := ∀ i, s.cur = some i → i + 1 = s.blocks.length

/-- The number of leading blocks of the state that are settled: every
block except an open one.  Settled blocks are never modified nor
removed by the rest of the traversal. -/
def stab (s : ExtractState) : Nat :=
  match s.cur with
  | none => s.blocks.length
  | some _ => s.blocks.length - 1

/-- The content transformation the reduce pass of `cleanInlines`
applies to one text unit: collapse whitespace, then strip a single
leading space after a break or a space-ending predecessor. -/
def cleanStep (prev : Option Inline) (c : JStr) : JStr :=
  let c1 := collapseWS c
  if c1.head? = some ' ' && prevTrailing prev then c1.tail else c1

/-! ## C8: `<hr>` renders as the fixed literal `- - -` -/

/-- C8: for the input `<hr>`, conversion outputs exactly `- - -`, the
`hr` block of the parse result carries no content field, and its raw
node list is already dropped by the compaction pass (so no inline
extraction is performed for it). -/
theorem hr_renders_fixed_literal :
    html2md (Node.element "body" [] [Node.element "hr" [] []]) = jstr "- - -" ∧
    parse (Node.element "body" [] [Node.element "hr" [] []]) =
      [{ type := "hr", content := none }] ∧
    compactBlocks (extractBlocks (Node.element "body" [] [Node.element "hr" [] []])) =
      [{ type := "hr", nodes := none }] :=
  ⟨rfl, rfl, rfl⟩

/-! ## C9: `<div><p></p><img src="x.png"></div>` -/

/-- C9: for the input `<div><p></p><img src="x.png"></div>`, block
extraction leaves the empty `p` block in the sequence, the Block
Compactor drops it (no text, no self-contained empty tag) while keeping
the block owning the `img`, and the result renders as its own paragraph
block to `![](x.png)`. -/
theorem empty_p_dropped_img_kept :
    extractBlocks (Node.element "body" []
        [Node.element "div" []
          [Node.element "p" [] [],
           Node.element "img" [("src", jstr "x.png")] []]]) =
      [{ type := "p", nodes := [] },
       { type := "p",
         nodes := [(["div", "body"], Node.element "img" [("src", jstr "x.png")] [])] }] ∧
    compactBlocks (extractBlocks (Node.element "body" []
        [Node.element "div" []
          [Node.element "p" [] [],
           Node.element "img" [("src", jstr "x.png")] []]])) =
      [{ type := "p",
         nodes := some [(["div", "body"], Node.element "img" [("src", jstr "x.png")] [])] }] ∧
    parse (Node.element "body" []
        [Node.element "div" []
          [Node.element "p" [] [],
           Node.element "img" [("src", jstr "x.png")] []]]) =
      [{ type := "p", content := some [Inline.img (some (jstr "x.png"))] }] ∧
    html2md (Node.element "body" []
        [Node.element "div" []
          [Node.element "p" [] [],
           Node.element "img" [("src", jstr "x.png")] []]]) = jstr "![](x.png)" :=
  ⟨rfl, rfl, rfl, rfl⟩

/-! ## C10: leading spaces survive after an `img` unit -/

/-- C10: the Inline Cleaner strips a text unit's single leading space
only when the preceding unit is a `br` or a space-ending text unit.  An
`img` predecessor behaves exactly like no predecessor at all, so its
successor keeps its leading space, and a cleaned sequence can contain a
text unit starting with a space directly after an `img` unit — while
the same text after a `br`, or after a space-ending text unit, is
stripped. -/
theorem img_predecessor_keeps_leading_space :
    (∀ src c s l, runClean (some (Inline.img src)) (Inline.text c s :: l) =
      runClean none (Inline.text c s :: l)) ∧
    cleanInlines [Inline.img none, Inline.text (jstr " a") []] =
      [Inline.img none, Inline.text (jstr " a") []] ∧
    cleanInlines [Inline.br, Inline.text (jstr " a") []] =
      [Inline.br, Inline.text (jstr "a") []] ∧
    cleanInlines [Inline.text (jstr "x ") [], Inline.text (jstr " a") [Style.bold]] =
      [Inline.text (jstr "x ") [], Inline.text (jstr "a") [Style.bold]] ∧
    cleanInlines [Inline.text (jstr "x") [], Inline.text (jstr " a") [Style.bold]] =
      [Inline.text (jstr "x") [], Inline.text (jstr " a") [Style.bold]] :=
  ⟨fun src c s l => by simp [runClean, prevTrailing], rfl, rfl, rfl, rfl⟩

/-! ## C6: block prefixes (corrected: `li` has no renderer case) -/

/-- C6 counterexample: a `li` block is not prefixed with a list marker;
the renderer's `switch` has no `li` case, so the mapped value is
`undefined` and the block contributes the empty string to the joined
output instead of `* x`. -/
theorem li_block_renders_empty :
    renderBlock { type := "li", content := some [Inline.text (jstr "x") []] } = none ∧
    toMarkdown [{ type := "li", content := some [Inline.text (jstr "x") []] }] = [] ∧
    toMarkdown [{ type := "li", content := some [Inline.text (jstr "x") []] }] ≠
      jstr "* x" :=
  ⟨rfl, rfl, by decide⟩

/-- C6 amended: the renderer prefixes every block whose type has a case
in its `switch` (`p`, `pre`, `blockquote`, `hr`, `h1`–`h6`) with the
static prefix of the markdown table — `# `…`###### `, `> `, a two-space
indent, the empty string for `p`, and the fixed `- - -` for the
content-less `hr` — but a `li` block has no case: it maps to
`undefined` and joins as the empty string, so no `* `/numbered marker
is ever emitted. -/
theorem renderBlock_static_prefixes :
    ∀ c : List Inline,
      renderBlock { type := "h1", content := some c } =
        some (jstr "# " ++ renderInlines c) ∧
      renderBlock { type := "h2", content := some c } =
        some (jstr "## " ++ renderInlines c) ∧
      renderBlock { type := "h3", content := some c } =
        some (jstr "### " ++ renderInlines c) ∧
      renderBlock { type := "h4", content := some c } =
        some (jstr "#### " ++ renderInlines c) ∧
      renderBlock { type := "h5", content := some c } =
        some (jstr "##### " ++ renderInlines c) ∧
      renderBlock { type := "h6", content := some c } =
        some (jstr "###### " ++ renderInlines c) ∧
      renderBlock { type := "blockquote", content := some c } =
        some (jstr "> " ++ renderInlines c) ∧
      renderBlock { type := "pre", content := some c } =
        some (jstr "  " ++ renderInlines c) ∧
      renderBlock { type := "p", content := some c } =
        some (renderInlines c) ∧
      renderBlock { type := "hr", content := none } = some (jstr "- - -") ∧
      renderBlock { type := "li", content := some c } = none ∧
      toMarkdown [{ type := "li", content := some c }] = [] :=
  fun c => ⟨rfl, rfl, rfl, rfl, rfl, rfl, rfl, rfl, rfl, rfl, rfl, rfl⟩

/-! ## C7: `img` with no `src` attribute (corrected: renders `![](null)`) -/

/-- C7 counterexample: for an `img` element with no `src` attribute,
`getAttribute` yields `null`; conversion completes without error but
JavaScript string coercion renders the block as `![](null)`, not
`![]()`. -/
theorem img_without_src_renders_null :
    html2md (Node.element "body" [] [Node.element "img" [] []]) = jstr "![](null)" ∧
    jstr "![](null)" ≠ jstr "![]()" :=
  ⟨rfl, by decide⟩

/-- C7 amended: an `img` element whose attribute list carries no `src`
is extracted as an `img` inline unit with the absent (`null`) source —
no error is raised anywhere in the total pipeline — and such a unit
renders as `![](null)` (JavaScript coerces `null` to the text "null"
inside concatenation). -/
theorem img_no_src_extracts_none (anc : List String) (attrs : List (String × JStr))
    (children : List Node) (inlines : List Inline)
    (h : List.lookup "src" attrs = none) :
    extractInlines anc (Node.element "img" attrs children) inlines =
      inlines ++ [Inline.img none] ∧
    renderInlines [Inline.img none] = jstr "![](null)" := by
  constructor
  · simp [extractInlines, h]
  · rfl

/-- Witness for C7's amended theorem at a concrete input. -/
theorem img_no_src_extracts_none_witness :
    extractInlines [] (Node.element "img" [("alt", jstr "x")] []) [] =
      [Inline.img none] ∧
    renderInlines [Inline.img none] = jstr "![](null)" :=
  img_no_src_extracts_none [] [("alt", jstr "x")] [] [] (by decide)

/-! ## C3: merging of same-style adjacent text runs -/

/-- The style list determined by the three selector conditions; the
filter over `markdown_inline_tags` always lists active styles in the
fixed object-key order bold, italic, code. -/
def stylesOf (b i c : Bool) : List Style :=
  (if b then [Style.bold] else []) ++ (if i then [Style.italic] else []) ++
    (if c then [Style.code] else [])

theorem computeStyles_eq_stylesOf (anc : List String) :
    computeStyles anc =
      stylesOf (anc.any (fun t => t = "b" || t = "strong"))
        (anc.any (fun t => t = "i" || t = "em"))
        (anc.any (fun t => t = "code")) := rfl

theorem stylesOf_eq_of_mem_iff :
    ∀ b1 i1 c1 b2 i2 c2 : Bool,
      (∀ x ∈ [Style.bold, Style.italic, Style.code],
        (x ∈ stylesOf b1 i1 c1 ↔ x ∈ stylesOf b2 i2 c2)) →
      stylesOf b1 i1 c1 = stylesOf b2 i2 c2 := by decide

theorem computeStyles_eq_of_mem_iff (anc anc' : List String)
    (h : ∀ x ∈ [Style.bold, Style.italic, Style.code],
      (x ∈ computeStyles anc ↔ x ∈ computeStyles anc')) :
    computeStyles anc = computeStyles anc' := by
  rw [computeStyles_eq_stylesOf, computeStyles_eq_stylesOf] at h ⊢
  exact stylesOf_eq_of_mem_iff _ _ _ _ _ _ h

/-- C3: `<b>a</b><b>b</b>` inside one block extracts to the single
text unit `"ab"` with styles `{bold}`; in general a text node whose
computed style set is set-equal to the styles of the immediately
preceding text unit (style sets are always produced in the fixed
bold/italic/code construction order, so set equality coincides with the
`_.isEqual` array test) is merged into that unit by content
concatenation instead of being appended. -/
theorem same_style_text_merges :
    extractInlinesList ["p", "body"]
      [Node.element "b" [] [Node.text (jstr "a")],
       Node.element "b" [] [Node.text (jstr "b")]] [] =
      [Inline.text (jstr "ab") [Style.bold]] ∧
    ∀ anc anc' (pre : List Inline) c1 c2,
      (∀ x ∈ [Style.bold, Style.italic, Style.code],
        (x ∈ computeStyles anc ↔ x ∈ computeStyles anc')) →
      extractInlines anc (Node.text c2) (pre ++ [Inline.text c1 (computeStyles anc')]) =
        pre ++ [Inline.text (c1 ++ c2) (computeStyles anc')] := by
  constructor
  · rfl
  · intro anc anc' pre c1 c2 h
    have heq : computeStyles anc' = computeStyles anc :=
      (computeStyles_eq_of_mem_iff anc anc' h).symm
    simp [extractInlines, heq]

/-- Witness for C3's general merging statement at a concrete input. -/
theorem same_style_text_merges_witness :
    extractInlines ["b"] (Node.text (jstr "b"))
      [Inline.text (jstr "a") (computeStyles ["strong"])] =
      [Inline.text (jstr "ab") (computeStyles ["strong"])] :=
  same_style_text_merges.2 ["b"] ["strong"] [] (jstr "a") (jstr "b") (by decide)

/-! ## C2: adjacent text units never share styles before cleaning -/

/-- Structural induction over DOM nodes with a member hypothesis for
the children list. -/
theorem nodeInd (P : Node → Prop) (ht : ∀ s, P (Node.text s))
    (he : ∀ t a c, (∀ n ∈ c, P n) → P (Node.element t a c)) :
    ∀ n : Node, P n
  | Node.text s => ht s
  | Node.element t a c => he t a c (fun n _ => nodeInd P ht he n)
termination_by n => sizeOf n
decreasing_by
  rename_i hn
  have := List.sizeOf_lt_of_mem hn
  simp only [Node.element.sizeOf_spec]
  omega

theorem lastStylesFrom_append_text (prev : Option (List Style)) (l : List Inline)
    (c : JStr) (s : List Style) :
    lastStylesFrom prev (l ++ [Inline.text c s]) = some s := by
  induction l generalizing prev with
  | nil => rfl
  | cons u rest ih => cases u <;> simp [lastStylesFrom, ih]

theorem lastStylesFrom_append_br (prev : Option (List Style)) (l : List Inline) :
    lastStylesFrom prev (l ++ [Inline.br]) = none := by
  induction l generalizing prev with
  | nil => rfl
  | cons u rest ih => cases u <;> simp [lastStylesFrom, ih]

theorem lastStylesFrom_append_img (prev : Option (List Style)) (l : List Inline)
    (src : Option JStr) :
    lastStylesFrom prev (l ++ [Inline.img src]) = none := by
  induction l generalizing prev with
  | nil => rfl
  | cons u rest ih => cases u <;> simp [lastStylesFrom, ih]

theorem adjOkFrom_append_text (prev : Option (List Style)) (l : List Inline)
    (c : JStr) (s : List Style) :
    adjOkFrom prev (l ++ [Inline.text c s]) =
      (adjOkFrom prev l && !decide (lastStylesFrom prev l = some s)) := by
  induction l generalizing prev with
  | nil => simp [adjOkFrom, lastStylesFrom]
  | cons u rest ih =>
    cases u <;> simp [adjOkFrom, lastStylesFrom, ih, Bool.and_assoc]

theorem adjOkFrom_append_br (prev : Option (List Style)) (l : List Inline) :
    adjOkFrom prev (l ++ [Inline.br]) = adjOkFrom prev l := by
  induction l generalizing prev with
  | nil => rfl
  | cons u rest ih => cases u <;> simp [adjOkFrom, ih]

theorem adjOkFrom_append_img (prev : Option (List Style)) (l : List Inline)
    (src : Option JStr) :
    adjOkFrom prev (l ++ [Inline.img src]) = adjOkFrom prev l := by
  induction l generalizing prev with
  | nil => rfl
  | cons u rest ih => cases u <;> simp [adjOkFrom, ih]

theorem eq_dropLast_append_of_getLast? {α : Type _} {l : List α} {u : α}
    (h : l.getLast? = some u) : l = l.dropLast ++ [u] := by
  induction l with
  | nil => cases h
  | cons x rest ih =>
    cases rest with
    | nil => cases h; rfl
    | cons y t =>
      have h2 : (y :: t).getLast? = some u := h
      calc x :: y :: t = x :: ((y :: t).dropLast ++ [u]) := by rw [← ih h2]
        _ = (x :: y :: t).dropLast ++ [u] := by simp

theorem extractInlines_adjOk_text (anc : List String) (c : JStr) (m : List Inline)
    (h : adjOk m = true) : adjOk (extractInlines anc (Node.text c) m) = true := by
  show adjOkFrom none _ = true
  rw [extractInlines]
  rcases hg : m.getLast? with _ | u
  · simp only [hg]
    simpa [adjOkFrom_append_text, lastStylesFrom, hg, List.getLast?_eq_none_iff.mp hg]
      using h
  · have hm := eq_dropLast_append_of_getLast? hg
    cases u with
    | text c0 s0 =>
      simp only [hg]
      by_cases hs : s0 = computeStyles anc
      · simp only [if_pos hs]
        rw [hm] at h
        unfold adjOk at h
        rw [adjOkFrom_append_text] at h ⊢
        exact h
      · simp only [if_neg hs]
        rw [adjOkFrom_append_text]
        have hls : lastStylesFrom none m = some s0 := by
          conv => lhs; rw [hm]
          exact lastStylesFrom_append_text _ _ _ _
        have hok : adjOkFrom none m = true := h
        simp [hls, hok, hs]
    | br =>
      simp only [hg]
      rw [adjOkFrom_append_text]
      have hls : lastStylesFrom none m = none := by
        rw [hm]; exact lastStylesFrom_append_br _ _
      simp only [hls]
      simp
      exact h
    | img src =>
      simp only [hg]
      rw [adjOkFrom_append_text]
      have hls : lastStylesFrom none m = none := by
        rw [hm]; exact lastStylesFrom_append_img _ _ _
      simp only [hls]
      simp
      exact h

theorem extractInlinesList_adjOk (anc : List String) (ns : List Node)
    (H : ∀ n ∈ ns, ∀ anc m, adjOk m = true → adjOk (extractInlines anc n m) = true) :
    ∀ m, adjOk m = true → adjOk (extractInlinesList anc ns m) = true := by
  induction ns with
  | nil => intro m h; exact h
  | cons n rest ih =>
    intro m h
    rw [extractInlinesList]
    exact ih (fun x hx => H x (List.mem_cons_of_mem _ hx)) _
      (H n (List.mem_cons_self _ _) anc m h)

/-- C2 counterexample: for the input `<p>a <b> </b>b</p>` the cleaned
content of the parsed paragraph consists of two adjacent text units
with the identical (empty) style set — the cleaner dropped the
bold space between them. -/
theorem cleaned_adjacent_styles_can_coincide :
    parse (Node.element "body" []
        [Node.element "p" []
          [Node.text (jstr "a "),
           Node.element "b" [] [Node.text (jstr " ")],
           Node.text (jstr "b")]]) =
      [{ type := "p",
         content := some [Inline.text (jstr "a ") [], Inline.text (jstr "b") []] }] ∧
    adjOk [Inline.text (jstr "a ") [], Inline.text (jstr "b") []] = false :=
  ⟨rfl, rfl⟩

/-- C2 amended: straight out of the Inline Extractor no two adjacent
text units share an identical style set (merging guarantees this), and
in particular every block's pre-clean inline sequence satisfies the
invariant; the Inline Cleaner, however, can drop an emptied unit
between two text units of equal styles, so the invariant need not
survive cleaning. -/
theorem extract_adjacent_styles_distinct :
    (∀ n anc m, adjOk m = true → adjOk (extractInlines anc n m) = true) ∧
    (∀ nodes : List (List String × Node),
      adjOk (nodes.foldl (fun m p => extractInlines p.1 p.2 m) []) = true) := by
  have main : ∀ n : Node, ∀ anc m, adjOk m = true → adjOk (extractInlines anc n m) = true := by
    intro n
    induction n using nodeInd with
    | ht s => exact fun anc m h => extractInlines_adjOk_text anc s m h
    | he t a c ihc =>
      intro anc m h
      rw [extractInlines]
      by_cases hbr : t = "br"
      · simp only [if_pos hbr]
        show adjOkFrom none _ = true
        rw [adjOkFrom_append_br]; exact h
      · simp only [if_neg hbr]
        by_cases himg : t = "img"
        · simp only [if_pos himg]
          show adjOkFrom none _ = true
          rw [adjOkFrom_append_img]; exact h
        · simp only [if_neg himg]
          exact extractInlinesList_adjOk _ c (fun x hx => ihc x hx) m h
  refine ⟨main, fun nodes => ?_⟩
  have : ∀ m, adjOk m = true →
      adjOk (nodes.foldl (fun m p => extractInlines p.1 p.2 m) m) = true := by
    induction nodes with
    | nil => intro m h; exact h
    | cons p rest ih =>
      intro m h
      rw [List.foldl_cons]
      exact ih _ (main p.2 p.1 m h)
  exact this [] rfl

/-- Witness for C2's amended invariant at a concrete input. -/
theorem extract_adjacent_styles_distinct_witness :
    adjOk (extractInlines [] (Node.text (jstr "x")) [Inline.br]) = true :=
  extract_adjacent_styles_distinct.1 (Node.text (jstr "x")) [] [Inline.br] (by decide)

/-! ## C4: cleaned text units are non-empty with no whitespace runs -/

theorem collapseWS_cons (d : Char) (rest : List Char) :
    ∃ t, collapseWS (d :: rest) = (if isWS d then ' ' else d) :: t := by
  induction rest generalizing d with
  | nil => exact ⟨[], by cases h : isWS d <;> simp [collapseWS, h]⟩
  | cons e r ih =>
    rw [collapseWS]
    by_cases h : (isWS d && isWS e) = true
    · rw [if_pos h]
      obtain ⟨t, ht⟩ := ih e
      refine ⟨t, ?_⟩
      rw [ht]
      have hd : isWS d = true := (Bool.and_eq_true_iff.mp h).1
      have he : isWS e = true := (Bool.and_eq_true_iff.mp h).2
      simp [hd, he]
    · rw [if_neg h]
      exact ⟨collapseWS (e :: r), rfl⟩

theorem collapsed_collapseWS : ∀ l, collapsed (collapseWS l) = true
  | [] => rfl
  | [c] => by cases h : isWS c <;> simp [collapseWS, collapsed, h]
  | c :: d :: rest => by
    have ih := collapsed_collapseWS (d :: rest)
    rw [collapseWS]
    by_cases h : (isWS c && isWS d) = true
    · rw [if_pos h]; exact ih
    · rw [if_neg h]
      obtain ⟨t, ht⟩ := collapseWS_cons d rest
      rw [ht] at ih ⊢
      rw [collapsed]
      refine Bool.and_eq_true_iff.mpr ⟨?_, ih⟩
      cases hc : isWS c
      · rw [if_neg (by simp [hc])]
        simp [hc]
      · have hd : isWS d = false := by
          cases hd2 : isWS d
          · rfl
          · exact absurd (by rw [hc, hd2]; rfl) h
        rw [if_pos (by simp [hc]), if_neg (by simp [hd])]
        simp [hd]

theorem collapsed_of_cons {c : Char} {l : List Char}
    (h : collapsed (c :: l) = true) : collapsed l = true := by
  cases l with
  | nil => rfl
  | cons d rest =>
    rw [collapsed] at h
    exact (Bool.and_eq_true_iff.mp h).2

theorem collapsed_tail {l : List Char} (h : collapsed l = true) :
    collapsed l.tail = true := by
  cases l with
  | nil => rfl
  | cons c rest => exact collapsed_of_cons h

theorem collapsed_dropWhile (p : Char → Bool) :
    ∀ l, collapsed l = true → collapsed (l.dropWhile p) = true
  | [], h => h
  | c :: rest, h => by
    rw [List.dropWhile_cons]
    cases hp : p c
    · simpa [hp] using h
    · simpa [hp] using collapsed_dropWhile p rest (collapsed_of_cons h)

theorem collapsed_append_left : ∀ l1 l2 : List Char,
    collapsed (l1 ++ l2) = true → collapsed l1 = true
  | [], _, _ => rfl
  | [c], l2, h => by
    cases l2 with
    | nil => simpa using h
    | cons d t =>
      rw [List.singleton_append, collapsed] at h
      have h1 := (Bool.and_eq_true_iff.mp h).1
      rw [collapsed]
      cases hc : isWS c
      · simp
      · rcases Bool.or_eq_true_iff.mp h1 with h2 | h2
        · rw [hc] at h2; cases h2
        · have h3 := (Bool.and_eq_true_iff.mp h2).1
          simp [h3]
  | c :: d :: rest, l2, h => by
    rw [List.cons_append, List.cons_append, collapsed] at h
    rw [collapsed]
    have h1 := Bool.and_eq_true_iff.mp h
    rw [← List.cons_append] at h1
    exact Bool.and_eq_true_iff.mpr ⟨h1.1, collapsed_append_left (d :: rest) l2 h1.2⟩

theorem noWSRun_of_collapsed : ∀ l, collapsed l = true → noWSRun l = true
  | [], _ => rfl
  | [_], _ => rfl
  | c :: d :: rest, h => by
    rw [collapsed] at h
    have h1 := Bool.and_eq_true_iff.mp h
    rw [noWSRun]
    refine Bool.and_eq_true_iff.mpr ⟨?_, noWSRun_of_collapsed (d :: rest) h1.2⟩
    cases hc : isWS c
    · simp
    · rcases Bool.or_eq_true_iff.mp h1.1 with h2 | h2
      · rw [hc] at h2; cases h2
      · have h3 := (Bool.and_eq_true_iff.mp h2).2
        simp [hc, h3]

theorem runClean_mem_text (prev : Option Inline) :
    ∀ l c s, Inline.text c s ∈ runClean prev l → c ≠ [] ∧ collapsed c = true := by
  intro l
  induction l generalizing prev with
  | nil => intro c s h; cases h
  | cons u rest ih =>
    intro c s h
    cases u with
    | text c0 s0 =>
      rw [runClean] at h
      by_cases he : (if (collapseWS c0).head? = some ' ' && prevTrailing prev
          then (collapseWS c0).tail else collapseWS c0).isEmpty = true
      · rw [if_pos he] at h
        exact ih _ _ _ h
      · rw [if_neg he] at h
        rcases List.mem_cons.mp h with h1 | h1
        · obtain ⟨hc, _⟩ := Inline.text.inj h1.symm
          subst hc
          constructor
          · intro hnil
            rw [hnil] at he
            exact he rfl
          · by_cases hcond : ((collapseWS c0).head? = some ' ' && prevTrailing prev) = true
            · rw [if_pos hcond]
              exact collapsed_tail (collapsed_collapseWS c0)
            · rw [if_neg hcond]
              exact collapsed_collapseWS c0
        · exact ih _ _ _ h1
    | br =>
      rw [runClean] at h
      rcases List.mem_cons.mp h with h1 | h1
      · cases h1
      · exact ih _ _ _ h1
    | img src =>
      rw [runClean] at h
      rcases List.mem_cons.mp h with h1 | h1
      · cases h1
      · exact ih _ _ _ h1

theorem trimLeading_mem_text :
    ∀ l, (∀ c s, Inline.text c s ∈ l → c ≠ [] ∧ collapsed c = true) →
      ∀ c s, Inline.text c s ∈ trimLeading l → c ≠ [] ∧ collapsed c = true
  | [], _, c, s, h => by cases h
  | Inline.text c0 s0 :: rest, H, c, s, h => by
    rw [trimLeading] at h
    by_cases he : (c0.dropWhile isWS).isEmpty = true
    · rw [if_pos he] at h
      exact trimLeading_mem_text rest
        (fun c' s' h' => H c' s' (List.mem_cons_of_mem _ h')) c s h
    · rw [if_neg he] at h
      rcases List.mem_cons.mp h with h1 | h1
      · obtain ⟨hc, _⟩ := Inline.text.inj h1.symm
        subst hc
        refine ⟨fun hnil => by rw [hnil] at he; exact he rfl, ?_⟩
        exact collapsed_dropWhile isWS c0 (H c0 s0 (List.mem_cons_self _ _)).2
      · exact H c s (List.mem_cons_of_mem _ h1)
  | Inline.br :: rest, H, c, s, h => H c s h
  | Inline.img src :: rest, H, c, s, h => H c s h

theorem stripTrailing_decomp (c : List Char) :
    c = (c.reverse.dropWhile isWS).reverse ++ (c.reverse.takeWhile isWS).reverse := by
  have h := List.takeWhile_append_dropWhile (p := isWS) (l := c.reverse)
  have h2 := congrArg List.reverse h
  rw [List.reverse_append, List.reverse_reverse] at h2
  exact h2.symm

theorem trimTrailingRev_mem_text :
    ∀ l, (∀ c s, Inline.text c s ∈ l → c ≠ [] ∧ collapsed c = true) →
      ∀ c s, Inline.text c s ∈ trimTrailingRev l → c ≠ [] ∧ collapsed c = true
  | [], _, c, s, h => by cases h
  | Inline.text c0 s0 :: rest, H, c, s, h => by
    rw [trimTrailingRev] at h
    by_cases he : ((c0.reverse.dropWhile isWS).reverse).isEmpty = true
    · rw [if_pos he] at h
      exact trimTrailingRev_mem_text rest
        (fun c' s' h' => H c' s' (List.mem_cons_of_mem _ h')) c s h
    · rw [if_neg he] at h
      rcases List.mem_cons.mp h with h1 | h1
      · obtain ⟨hc, _⟩ := Inline.text.inj h1.symm
        subst hc
        refine ⟨fun hnil => by rw [hnil] at he; exact he rfl, ?_⟩
        have hcol := (H c0 s0 (List.mem_cons_self _ _)).2
        rw [stripTrailing_decomp c0] at hcol
        exact collapsed_append_left _ _ hcol
      · exact H c s (List.mem_cons_of_mem _ h1)
  | Inline.br :: rest, H, c, s, h => H c s h
  | Inline.img src :: rest, H, c, s, h => H c s h

/-- C4: every text unit of a cleaned inline sequence has non-empty
content with no run of two or more consecutive whitespace
characters. -/
theorem cleaned_text_nonempty_no_ws_runs (l : List Inline) (c : JStr) (s : List Style)
    (h : Inline.text c s ∈ cleanInlines l) : c ≠ [] ∧ noWSRun c = true := by
  have h1 : Inline.text c s ∈ trimTrailingRev (trimLeading (runClean none l)).reverse := by
    have := h
    rw [cleanInlines, trimTrailing] at this
    exact List.mem_reverse.mp this
  have H1 : ∀ c' s', Inline.text c' s' ∈ runClean none l → c' ≠ [] ∧ collapsed c' = true :=
    fun c' s' h' => runClean_mem_text none l c' s' h'
  have H2 : ∀ c' s', Inline.text c' s' ∈ trimLeading (runClean none l) →
      c' ≠ [] ∧ collapsed c' = true :=
    trimLeading_mem_text _ H1
  have H3 : ∀ c' s', Inline.text c' s' ∈ (trimLeading (runClean none l)).reverse →
      c' ≠ [] ∧ collapsed c' = true :=
    fun c' s' h' => H2 c' s' (List.mem_reverse.mp h')
  have := trimTrailingRev_mem_text _ H3 c s h1
  exact ⟨this.1, noWSRun_of_collapsed c this.2⟩

/-- Witness for C4 at a concrete input. -/
theorem cleaned_text_nonempty_no_ws_runs_witness :
    Inline.text (jstr "a b") [] ∈ cleanInlines [Inline.text (jstr " a  b ") []] ∧
    jstr "a b" ≠ [] ∧ noWSRun (jstr "a b") = true :=
  ⟨by decide,
    (cleaned_text_nonempty_no_ws_runs [Inline.text (jstr " a  b ") []]
      (jstr "a b") [] (by decide)).1,
    (cleaned_text_nonempty_no_ws_runs [Inline.text (jstr " a  b ") []]
      (jstr "a b") [] (by decide)).2⟩

/-! ## C5: the discard guard only ever removes the open last block -/

theorem listPre_trans {a b c : List RawBlock} (h1 : listPre a b) (h2 : listPre b c) :
    listPre a c := by
  obtain ⟨t1, ht1⟩ := h1
  obtain ⟨t2, ht2⟩ := h2
  exact ⟨t1 ++ t2, by rw [← List.append_assoc, ht1, ht2]⟩

theorem listPre_append (l t : List RawBlock) : listPre l (l ++ t) := ⟨t, rfl⟩

theorem listPre_take (l : List RawBlock) (n : Nat) : listPre (l.take n) l :=
  ⟨l.drop n, List.take_append_drop n l⟩

theorem listPre_of_le_take {T l : List RawBlock} {n : Nat} (h : listPre T l)
    (hn : T.length ≤ n) : listPre T (l.take n) := by
  obtain ⟨t, ht⟩ := h
  refine ⟨t.take (n - T.length), ?_⟩
  rw [← ht, List.take_append_eq_append_take, List.take_of_length_le hn]

theorem pushNode_length (i : Nat) (p : List String × Node) :
    ∀ l : List RawBlock, (pushNode i p l).length = l.length := by
  intro l
  induction l generalizing i with
  | nil => simp [pushNode]
  | cons b rest ih =>
    cases i with
    | zero => simp [pushNode]
    | succ j => simp [pushNode, ih]

theorem pushNode_take (p : List String × Node) :
    ∀ (l : List RawBlock) (i n : Nat), n ≤ i → (pushNode i p l).take n = l.take n := by
  intro l
  induction l with
  | nil => intro i n _; simp [pushNode]
  | cons b rest ih =>
    intro i n hn
    cases i with
    | zero =>
      have h0 : n = 0 := Nat.le_zero.mp hn
      subst h0
      simp
    | succ j =>
      cases n with
      | zero => simp
      | succ m =>
        have hred : pushNode (j + 1) p (b :: rest) = b :: pushNode j p rest := by
          simp [pushNode]
        rw [hred, List.take_succ_cons, List.take_succ_cons,
          ih j m (Nat.le_of_succ_le_succ hn)]

theorem stab_le_length (s : ExtractState) : stab s ≤ s.blocks.length := by
  unfold stab
  cases s.cur
  · exact Nat.le_refl _
  · exact Nat.sub_le _ _

theorem take_stab_length_le (s : ExtractState) :
    (s.blocks.take (stab s)).length ≤ stab s := by
  rw [List.length_take]
  exact Nat.min_le_left _ _

theorem addInline_facts (anc : List String) (el : Node) (s : ExtractState)
    (h : ExInv s) :
    ExInv (addInline anc el s) ∧ stab s ≤ stab (addInline anc el s) ∧
      listPre (s.blocks.take (stab s)) (addInline anc el s).blocks := by
  cases hc : s.cur with
  | none =>
    have hred : addInline anc el s =
        { s with blocks := s.blocks ++ [{ type := "p", nodes := [(anc, el)] }] } := by
      simp [addInline, hc]
    rw [hred]
    refine ⟨?_, ?_, ?_⟩
    · intro j hj
      have hj2 : s.cur = some j := hj
      rw [hc] at hj2
      cases hj2
    · simp only [stab, hc]
      simp [List.length_append]
    · simp only [stab, hc]
      rw [List.take_length]
      exact listPre_append _ _
  | some i =>
    have hlen : i + 1 = s.blocks.length := h i hc
    have hred : addInline anc el s =
        { s with blocks := pushNode i (anc, el) s.blocks } := by
      simp [addInline, hc]
    rw [hred]
    refine ⟨?_, ?_, ?_⟩
    · intro j hj
      have hj2 : s.cur = some j := hj
      rw [hc] at hj2
      have hj3 : i = j := Option.some.inj hj2
      subst hj3
      show i + 1 = (pushNode i (anc, el) s.blocks).length
      rw [pushNode_length]
      exact hlen
    · simp only [stab, hc, pushNode_length]
      exact Nat.le_refl _
    · simp only [stab, hc]
      have htake : (pushNode i (anc, el) s.blocks).take (s.blocks.length - 1) =
          s.blocks.take (s.blocks.length - 1) := by
        apply pushNode_take
        omega
      have hp := listPre_take (pushNode i (anc, el) s.blocks) (s.blocks.length - 1)
      rw [htake] at hp
      exact hp

theorem pushBlock_facts (t : String) (s1 : ExtractState) (s : ExtractState)
    (hblocks : s1.blocks = s.blocks ∨
      (s.cur ≠ none ∧ s1.blocks = s.blocks.dropLast)) :
    ExInv (pushBlock t s1) ∧ stab s ≤ stab (pushBlock t s1) ∧
      listPre (s.blocks.take (stab s)) (pushBlock t s1).blocks := by
  have hinv : ExInv (pushBlock t s1) := by
    intro j hj
    have hj2 : some s1.blocks.length = some j := hj
    have hj3 : s1.blocks.length = j := Option.some.inj hj2
    subst hj3
    show s1.blocks.length + 1 = (s1.blocks ++ [({ type := t, nodes := [] } : RawBlock)]).length
    simp [List.length_append]
  have hstabp : stab (pushBlock t s1) = s1.blocks.length := by
    simp only [stab, pushBlock]
    simp [List.length_append]
  refine ⟨hinv, ?_, ?_⟩
  · rw [hstabp]
    rcases hblocks with hb | ⟨hcur, hb⟩
    · rw [hb]
      exact stab_le_length s
    · rw [hb, List.length_dropLast]
      simp only [stab]
      cases hcs : s.cur with
      | none => exact absurd hcs hcur
      | some i => exact Nat.le_refl _
  · show listPre (s.blocks.take (stab s)) (s1.blocks ++ [{ type := t, nodes := [] }])
    rcases hblocks with hb | ⟨hcur, hb⟩
    · rw [hb]
      exact listPre_trans (listPre_take _ _) (listPre_append _ _)
    · rw [hb]
      simp only [stab]
      cases hcs : s.cur with
      | none => exact absurd hcs hcur
      | some i =>
        rw [List.dropLast_eq_take s.blocks]
        exact listPre_append _ _

theorem discardEmpty_blocks (s : ExtractState) :
    (discardEmpty s).blocks = s.blocks ∨
      (s.cur ≠ none ∧ (discardEmpty s).blocks = s.blocks.dropLast) := by
  cases hc : s.cur with
  | none =>
    have hh : discardEmpty s = s := by simp [discardEmpty, hc]
    rw [hh]
    exact Or.inl rfl
  | some i =>
    cases hq : s.blocks[i]? with
    | none =>
      have hh : discardEmpty s = s := by simp [discardEmpty, hc, hq]
      rw [hh]
      exact Or.inl rfl
    | some b =>
      by_cases hg : (b.nodes.isEmpty && !decide (b.type ∈ markdown_empty_blocks)
          && i + 1 == s.blocks.length) = true
      · have hh : discardEmpty s = { s with blocks := s.blocks.dropLast } := by
          simp [discardEmpty, hc, hq, hg]
        rw [hh]
        refine Or.inr ⟨?_, rfl⟩
        simp [hc]
      · have hh : discardEmpty s = s := by
          simp only [discardEmpty, hc, hq]
          rw [if_neg hg]
        rw [hh]
        exact Or.inl rfl

theorem open_facts (t : String) (s : ExtractState) (_h : ExInv s) :
    ExInv (pushBlock t (discardEmpty s)) ∧
      stab s ≤ stab (pushBlock t (discardEmpty s)) ∧
      listPre (s.blocks.take (stab s)) (pushBlock t (discardEmpty s)).blocks :=
  pushBlock_facts t (discardEmpty s) s (discardEmpty_blocks s)

theorem extractList_pres (anc : List String) (ns : List Node)
    (H : ∀ n ∈ ns, ∀ anc s, ExInv s →
      ExInv (extract anc n s) ∧ stab s ≤ stab (extract anc n s) ∧
        listPre (s.blocks.take (stab s)) (extract anc n s).blocks) :
    ∀ s T, ExInv s → listPre T s.blocks → T.length ≤ stab s →
      ExInv (extractList anc ns s) ∧ listPre T (extractList anc ns s).blocks ∧
        T.length ≤ stab (extractList anc ns s) ∧
        stab s ≤ stab (extractList anc ns s) := by
  induction ns with
  | nil =>
    intro s T h1 h2 h3
    exact ⟨h1, h2, h3, Nat.le_refl _⟩
  | cons n rest ih =>
    intro s T h1 h2 h3
    rw [extractList]
    obtain ⟨hinv, hstab, hpre⟩ := H n (List.mem_cons_self _ _) anc s h1
    have hT : listPre T (extract anc n s).blocks :=
      listPre_trans (listPre_of_le_take h2 h3) hpre
    have hTlen : T.length ≤ stab (extract anc n s) := Nat.le_trans h3 hstab
    obtain ⟨r1, r2, r3, r4⟩ := ih (fun x hx => H x (List.mem_cons_of_mem _ hx))
      (extract anc n s) T hinv hT hTlen
    exact ⟨r1, r2, r3, Nat.le_trans hstab r4⟩

theorem extract_master : ∀ n : Node, ∀ anc s, ExInv s →
    ExInv (extract anc n s) ∧ stab s ≤ stab (extract anc n s) ∧
      listPre (s.blocks.take (stab s)) (extract anc n s).blocks := by
  intro n
  induction n using nodeInd with
  | ht str =>
    intro anc s h
    rw [extract]
    exact addInline_facts anc (Node.text str) s h
  | he t a c ihc =>
    intro anc s h
    rw [extract]
    by_cases hb : t ∈ block_elements
    · simp only [if_pos hb]
      obtain ⟨h2inv, h2stab, h2pre⟩ :=
        open_facts (if t ∈ markdown_block_tags then t else "p") s h
      obtain ⟨h3inv, h3pre, h3len, h3stab⟩ :=
        extractList_pres (t :: anc) c (fun n hn => ihc n hn)
          (pushBlock (if t ∈ markdown_block_tags then t else "p") (discardEmpty s))
          (s.blocks.take (stab s)) h2inv h2pre
          (Nat.le_trans (take_stab_length_le s) h2stab)
      refine ⟨?_, ?_, ?_⟩
      · intro j hj
        cases hj
      · show stab s ≤ stab { extractList (t :: anc) c _ with cur := none }
        unfold stab
        simp only
        exact Nat.le_trans (Nat.le_trans h2stab h3stab)
          (Nat.le_trans (stab_le_length _) (Nat.le_refl _))
      · exact h3pre
    · simp only [if_neg hb]
      exact addInline_facts anc (Node.element t a c) s h

/-- C5: during block extraction no block other than the currently open
(most recently pushed) one is ever modified or removed: the settled
prefix of the state — every block but an open last one — is an initial
segment of every later state, so the empty-block discard only ever
removes the literally last pushed block.  Concretely, for
`<div><p></p>x</div>` the empty `p` block opened before `<p>` closed is
left in place by extraction (it is no longer the open block when the
text node arrives) and is removed only by the separate compaction
pass. -/
theorem empty_block_discard_is_last_in_only :
    (∀ n anc s, ExInv s →
      ExInv (extract anc n s) ∧ stab s ≤ stab (extract anc n s) ∧
        listPre (s.blocks.take (stab s)) (extract anc n s).blocks) ∧
    extractBlocks (Node.element "body" []
        [Node.element "div" []
          [Node.element "p" [] [], Node.text (jstr "x")]]) =
      [{ type := "p", nodes := [] },
       { type := "p", nodes := [(["div", "body"], Node.text (jstr "x"))] }] ∧
    compactBlocks (extractBlocks (Node.element "body" []
        [Node.element "div" []
          [Node.element "p" [] [], Node.text (jstr "x")]])) =
      [{ type := "p", nodes := some [(["div", "body"], Node.text (jstr "x"))] }] :=
  ⟨fun n anc s h => extract_master n anc s h, rfl, rfl⟩

/-- Witness for C5's master statement at a concrete state. -/
theorem empty_block_discard_is_last_in_only_witness :
    ExInv (extract ["body"] (Node.element "p" [] [Node.text (jstr "hi")])
      { blocks := [], cur := none }) :=
  (empty_block_discard_is_last_in_only.1 (Node.element "p" [] [Node.text (jstr "hi")])
    ["body"] { blocks := [], cur := none } (fun i hi => by cases hi)).1

/-! ## C1: idempotence of the Inline Cleaner -/

theorem collapseWS_of_collapsed : ∀ l, collapsed l = true → collapseWS l = l
  | [], _ => rfl
  | [c], h => by
    rw [collapsed] at h
    rw [collapseWS]
    cases hc : isWS c
    · rw [if_neg (by simp [hc])]
    · rw [if_pos (by simp [hc])]
      rcases Bool.or_eq_true_iff.mp h with h2 | h2
      · rw [hc] at h2; cases h2
      · simp only [decide_eq_true_eq] at h2
        rw [h2]
  | c :: d :: rest, h => by
    rw [collapsed] at h
    have h1 := Bool.and_eq_true_iff.mp h
    rw [collapseWS]
    have hnd : (isWS c && isWS d) = false := by
      cases hcw : isWS c
      · simp
      · rcases Bool.or_eq_true_iff.mp h1.1 with h2 | h2
        · rw [hcw] at h2; cases h2
        · have h3 := (Bool.and_eq_true_iff.mp h2).2
          simp only [Bool.not_eq_true'] at h3
          simp [h3]
    rw [if_neg (by simp [hnd])]
    rw [collapseWS_of_collapsed (d :: rest) h1.2]
    congr 1
    cases hcw : isWS c
    · rw [if_neg (by simp [hcw])]
    · rcases Bool.or_eq_true_iff.mp h1.1 with h2 | h2
      · rw [hcw] at h2; cases h2
      · have h3 := (Bool.and_eq_true_iff.mp h2).1
        simp only [decide_eq_true_eq] at h3
        rw [if_pos (by simp [hcw]), h3]

theorem dropWhile_head_false (p : Char → Bool) :
    ∀ (l : List Char) (c : Char) (t : List Char), l.dropWhile p = c :: t → p c = false
  | [], c, t, h => by cases h
  | a :: rest, c, t, h => by
    rw [List.dropWhile_cons] at h
    by_cases hp : p a = true
    · rw [if_pos hp] at h
      exact dropWhile_head_false p rest c t h
    · rw [if_neg hp] at h
      injection h with h1 _
      subst h1
      cases hb : p a
      · rfl
      · exact absurd hb hp

theorem getLast?_dropWhile_of_ne_nil (p : Char → Bool) :
    ∀ l : List Char, l.dropWhile p ≠ [] → (l.dropWhile p).getLast? = l.getLast?
  | [], h => absurd rfl h
  | a :: rest, h => by
    rw [List.dropWhile_cons] at h ⊢
    by_cases hp : p a = true
    · rw [if_pos hp] at h ⊢
      have hrest : rest ≠ [] := by
        intro he
        rw [he] at h
        exact h rfl
      rw [getLast?_dropWhile_of_ne_nil p rest h]
      cases rest with
      | nil => exact absurd rfl hrest
      | cons y t => rw [List.getLast?_cons_cons]
    · rw [if_neg hp]

theorem runClean_cons_text (prev : Option Inline) (c : JStr) (s : List Style)
    (rest : List Inline) :
    runClean prev (Inline.text c s :: rest) =
      if (cleanStep prev c).isEmpty
      then runClean (some (Inline.text (cleanStep prev c) s)) rest
      else Inline.text (cleanStep prev c) s ::
        runClean (some (Inline.text (cleanStep prev c) s)) rest := rfl

theorem runClean_length_le (prev : Option Inline) :
    ∀ l : List Inline, (runClean prev l).length ≤ l.length
  | [] => Nat.le_refl 0
  | Inline.text c s :: rest => by
    rw [runClean_cons_text]
    by_cases he : (cleanStep prev c).isEmpty = true
    · rw [if_pos he]
      exact Nat.le_trans (runClean_length_le _ rest) (Nat.le_succ _)
    · rw [if_neg he]
      simp only [List.length_cons]
      exact Nat.succ_le_succ (runClean_length_le _ rest)
  | Inline.br :: rest => by
    rw [runClean]
    simp only [List.length_cons]
    exact Nat.succ_le_succ (runClean_length_le _ rest)
  | Inline.img src :: rest => by
    rw [runClean]
    simp only [List.length_cons]
    exact Nat.succ_le_succ (runClean_length_le _ rest)

theorem trimLeading_length_le : ∀ l : List Inline, (trimLeading l).length ≤ l.length
  | [] => Nat.le_refl 0
  | Inline.text c s :: rest => by
    rw [trimLeading]
    by_cases he : (c.dropWhile isWS).isEmpty = true
    · rw [if_pos he]
      exact Nat.le_trans (trimLeading_length_le rest) (Nat.le_succ _)
    · rw [if_neg he]
      exact Nat.le_refl _
  | Inline.br :: rest => Nat.le_refl _
  | Inline.img src :: rest => Nat.le_refl _

theorem trimTrailingRev_length_le : ∀ l : List Inline, (trimTrailingRev l).length ≤ l.length
  | [] => Nat.le_refl 0
  | Inline.text c s :: rest => by
    rw [trimTrailingRev]
    by_cases he : ((c.reverse.dropWhile isWS).reverse).isEmpty = true
    · rw [if_pos he]
      exact Nat.le_trans (trimTrailingRev_length_le rest) (Nat.le_succ _)
    · rw [if_neg he]
      exact Nat.le_refl _
  | Inline.br :: rest => Nat.le_refl _
  | Inline.img src :: rest => Nat.le_refl _

theorem trimTrailing_length_le (l : List Inline) : (trimTrailing l).length ≤ l.length := by
  rw [trimTrailing]
  rw [List.length_reverse]
  have := trimTrailingRev_length_le l.reverse
  rw [List.length_reverse] at this
  exact this

theorem cleanStep_collapsed (prev : Option Inline) (c : JStr) :
    collapsed (cleanStep prev c) = true := by
  rw [cleanStep]
  by_cases h : ((collapseWS c).head? = some ' ' && prevTrailing prev) = true
  · rw [if_pos h]
    exact collapsed_tail (collapsed_collapseWS c)
  · rw [if_neg h]
    exact collapsed_collapseWS c

theorem cleanStep_no_strip_left (prev : Option Inline) (c : JStr)
    (hne : cleanStep prev c ≠ []) :
    ((cleanStep prev c).head? = some ' ' && prevTrailing prev) = false := by
  rw [cleanStep] at hne ⊢
  by_cases h : ((collapseWS c).head? = some ' ' && prevTrailing prev) = true
  · rw [if_pos h] at hne ⊢
    have hh := (Bool.and_eq_true_iff.mp h).1
    simp only [decide_eq_true_eq] at hh
    cases hcw : collapseWS c with
    | nil => rw [hcw] at hh; cases hh
    | cons a t =>
      rw [hcw] at hh hne
      simp only [List.head?] at hh
      have ha : a = ' ' := Option.some.inj hh
      subst ha
      simp only [List.tail_cons] at hne ⊢
      cases t with
      | nil => exact absurd rfl hne
      | cons d t2 =>
        have hcol := collapsed_collapseWS c
        rw [hcw, collapsed] at hcol
        have h1 := (Bool.and_eq_true_iff.mp hcol).1
        have hd : isWS d = false := by
          rcases Bool.or_eq_true_iff.mp h1 with h2 | h2
          · simp [isWS] at h2
          · simpa using (Bool.and_eq_true_iff.mp h2).2
        have hd' : d ≠ ' ' := by
          intro he
          rw [he] at hd
          simp [isWS] at hd
        simp [hd']
  · rw [if_neg h]
    cases hx : ((collapseWS c).head? = some ' ' && prevTrailing prev)
    · rfl
    · exact absurd hx h

theorem cleanStep_of_nf (prev : Option Inline) (c : JStr)
    (hcol : collapsed c = true)
    (hns : (c.head? = some ' ' && prevTrailing prev) = false) :
    cleanStep prev c = c := by
  rw [cleanStep]
  rw [collapseWS_of_collapsed c hcol]
  rw [if_neg (by simp [hns])]

theorem cleanNF_congr_prev : ∀ (l : List Inline) (p1 p2 : Option Inline),
    prevTrailing p1 = prevTrailing p2 → cleanNF p1 l = cleanNF p2 l
  | [], _, _, _ => rfl
  | Inline.text c s :: rest, _, _, h => by rw [cleanNF, cleanNF, h]
  | Inline.br :: _, _, _, _ => rfl
  | Inline.img _ :: _, _, _, _ => rfl

theorem runClean_nf : ∀ (l : List Inline) (prev : Option Inline),
    (runClean prev l).length = l.length → cleanNF prev (runClean prev l) = true
  | [], _, _ => rfl
  | Inline.text c s :: rest, prev, h => by
    rw [runClean_cons_text] at h ⊢
    by_cases he : (cleanStep prev c).isEmpty = true
    · exfalso
      rw [if_pos he] at h
      have hle := runClean_length_le (some (Inline.text (cleanStep prev c) s)) rest
      simp only [List.length_cons] at h
      omega
    · rw [if_neg he] at h ⊢
      simp only [List.length_cons] at h
      have hle := runClean_length_le (some (Inline.text (cleanStep prev c) s)) rest
      have hlen : (runClean (some (Inline.text (cleanStep prev c) s)) rest).length =
          rest.length := by omega
      have ih := runClean_nf rest (some (Inline.text (cleanStep prev c) s)) hlen
      rw [cleanNF]
      have hne : cleanStep prev c ≠ [] := by
        intro h0
        rw [h0] at he
        exact he rfl
      have h1 : (cleanStep prev c).isEmpty = false := by
        cases hie : (cleanStep prev c).isEmpty
        · rfl
        · exact absurd hie he
      rw [h1, cleanStep_collapsed, cleanStep_no_strip_left prev c hne, ih]
      rfl
  | Inline.br :: rest, prev, h => by
    rw [runClean] at h ⊢
    simp only [List.length_cons] at h
    rw [cleanNF]
    exact runClean_nf rest (some Inline.br) (by omega)
  | Inline.img src :: rest, prev, h => by
    rw [runClean] at h ⊢
    simp only [List.length_cons] at h
    rw [cleanNF]
    exact runClean_nf rest (some (Inline.img src)) (by omega)

theorem runClean_of_nf : ∀ (l : List Inline) (prev : Option Inline),
    cleanNF prev l = true → runClean prev l = l
  | [], _, _ => rfl
  | Inline.text c s :: rest, prev, h => by
    rw [cleanNF] at h
    have h4 := Bool.and_eq_true_iff.mp h
    have h123 := Bool.and_eq_true_iff.mp h4.1
    have h12 := Bool.and_eq_true_iff.mp h123.1
    have hcol : collapsed c = true := h12.2
    have h3 := h123.2
    have hcond : (c.head? = some ' ' && prevTrailing prev) = false := by
      cases hx : (decide (List.head? c = some ' ') && prevTrailing prev)
      · rfl
      · rw [hx] at h3
        simp at h3
    rw [runClean_cons_text]
    rw [cleanStep_of_nf prev c hcol hcond]
    have hie : c.isEmpty = false := by simpa using h12.1
    rw [if_neg (by simp [hie])]
    rw [runClean_of_nf rest (some (Inline.text c s)) h4.2]
  | Inline.br :: rest, prev, h => by
    rw [cleanNF] at h
    rw [runClean]
    rw [runClean_of_nf rest (some Inline.br) h]
  | Inline.img src :: rest, prev, h => by
    rw [cleanNF] at h
    rw [runClean]
    rw [runClean_of_nf rest (some (Inline.img src)) h]

theorem cleanNF_mem_text : ∀ (l : List Inline) (prev : Option Inline),
    cleanNF prev l = true → ∀ c s, Inline.text c s ∈ l → c ≠ [] ∧ collapsed c = true
  | [], _, _, c, s, hm => by cases hm
  | Inline.text c0 s0 :: rest, prev, h, c, s, hm => by
    rw [cleanNF] at h
    have h4 := Bool.and_eq_true_iff.mp h
    have h123 := Bool.and_eq_true_iff.mp h4.1
    have h12 := Bool.and_eq_true_iff.mp h123.1
    rcases List.mem_cons.mp hm with h1 | h1
    · obtain ⟨hc, _⟩ := Inline.text.inj h1
      subst hc
      exact ⟨by simpa using h12.1, h12.2⟩
    · exact cleanNF_mem_text rest (some (Inline.text c0 s0)) h4.2 c s h1
  | Inline.br :: rest, prev, h, c, s, hm => by
    rw [cleanNF] at h
    rcases List.mem_cons.mp hm with h1 | h1
    · cases h1
    · exact cleanNF_mem_text rest (some Inline.br) h c s h1
  | Inline.img src :: rest, prev, h, c, s, hm => by
    rw [cleanNF] at h
    rcases List.mem_cons.mp hm with h1 | h1
    · cases h1
    · exact cleanNF_mem_text rest (some (Inline.img src)) h c s h1

theorem cleanNF_replaceLast : ∀ (init : List Inline) (prev : Option Inline)
    (c c' : JStr) (s : List Style),
    cleanNF prev (init ++ [Inline.text c s]) = true →
    c' ≠ [] → collapsed c' = true → c'.head? = c.head? →
    cleanNF prev (init ++ [Inline.text c' s]) = true
  | [], prev, c, c', s, h, hne, hcol, hhd => by
    simp only [List.nil_append] at h ⊢
    rw [cleanNF] at h ⊢
    have h4 := Bool.and_eq_true_iff.mp h
    have h123 := Bool.and_eq_true_iff.mp h4.1
    have hie : c'.isEmpty = false := by
      cases hx : c'.isEmpty
      · rfl
      · exact absurd (List.isEmpty_iff.mp hx) hne
    rw [hie, hcol, hhd, h123.2]
    simp [cleanNF]
  | u :: init', prev, c, c', s, h, hne, hcol, hhd => by
    cases u with
    | text c0 s0 =>
      rw [List.cons_append] at h ⊢
      rw [cleanNF] at h ⊢
      have h4 := Bool.and_eq_true_iff.mp h
      have htail := cleanNF_replaceLast init' (some (Inline.text c0 s0)) c c' s
        h4.2 hne hcol hhd
      rw [h4.1, htail]
      rfl
    | br =>
      rw [List.cons_append] at h ⊢
      rw [cleanNF] at h ⊢
      exact cleanNF_replaceLast init' (some Inline.br) c c' s h hne hcol hhd
    | img src =>
      rw [List.cons_append] at h ⊢
      rw [cleanNF] at h ⊢
      exact cleanNF_replaceLast init' (some (Inline.img src)) c c' s h hne hcol hhd

theorem noLeadWS_cons_congr (v : Inline) (l1 l2 : List Inline) :
    noLeadWS (v :: l1) = noLeadWS (v :: l2) := by
  cases v <;> rfl

theorem trimLeading_nf : ∀ p : List Inline, cleanNF none p = true →
    (trimLeading p).length = p.length →
    cleanNF none (trimLeading p) = true ∧ noLeadWS (trimLeading p) = true
  | [], h, _ => ⟨h, rfl⟩
  | Inline.text c s :: rest, h, hlen => by
    rw [trimLeading] at hlen ⊢
    by_cases he : (c.dropWhile isWS).isEmpty = true
    · exfalso
      rw [if_pos he] at hlen
      have hle := trimLeading_length_le rest
      simp only [List.length_cons] at hlen
      omega
    · rw [if_neg he] at hlen ⊢
      rw [cleanNF] at h
      have h4 := Bool.and_eq_true_iff.mp h
      have h123 := Bool.and_eq_true_iff.mp h4.1
      have h12 := Bool.and_eq_true_iff.mp h123.1
      have hne : c.dropWhile isWS ≠ [] := fun h0 => by rw [h0] at he; exact he rfl
      have hie : (c.dropWhile isWS).isEmpty = false := by
        cases hx : (c.dropWhile isWS).isEmpty
        · rfl
        · exact absurd hx he
      constructor
      · rw [cleanNF]
        have hcol : collapsed (c.dropWhile isWS) = true := collapsed_dropWhile isWS c h12.2
        have hlast : (c.dropWhile isWS).getLast? = c.getLast? :=
          getLast?_dropWhile_of_ne_nil isWS c hne
        have hprev : prevTrailing (some (Inline.text (c.dropWhile isWS) s)) =
            prevTrailing (some (Inline.text c s)) := by
          simp only [prevTrailing, hlast]
        have htail : cleanNF (some (Inline.text (c.dropWhile isWS) s)) rest = true := by
          rw [cleanNF_congr_prev rest _ _ hprev]
          exact h4.2
        rw [hie, hcol, htail]
        have hpn : prevTrailing none = false := rfl
        simp [hpn]
      · rw [noLeadWS]
        cases hdw : c.dropWhile isWS with
        | nil => exact absurd hdw hne
        | cons a t =>
          have ha := dropWhile_head_false isWS c a t hdw
          simp [ha]
  | Inline.br :: rest, h, _ => ⟨h, rfl⟩
  | Inline.img src :: rest, h, _ => ⟨h, rfl⟩

theorem trimTrailing_nf : ∀ q : List Inline, cleanNF none q = true → noLeadWS q = true →
    (trimTrailing q).length = q.length →
    cleanNF none (trimTrailing q) = true ∧ noLeadWS (trimTrailing q) = true ∧
      noTrailWS (trimTrailing q) = true := by
  intro q h1 h2 h3
  rcases hq : q.reverse with _ | ⟨u, rest'⟩
  · have hqe : q = [] := List.reverse_eq_nil_iff.mp hq
    subst hqe
    exact ⟨h1, h2, rfl⟩
  · have hq2 : q = rest'.reverse ++ [u] := by
      have hc := congrArg List.reverse hq
      rw [List.reverse_reverse, List.reverse_cons] at hc
      exact hc
    cases u with
    | br =>
      have htt : trimTrailing q = q := by
        rw [trimTrailing, hq]
        show (Inline.br :: rest').reverse = q
        rw [← hq, List.reverse_reverse]
      rw [htt]
      refine ⟨h1, h2, ?_⟩
      have hg : q.getLast? = some Inline.br := by
        rw [← List.head?_reverse q, hq]
        rfl
      simp only [noTrailWS, hg]
    | img src =>
      have htt : trimTrailing q = q := by
        rw [trimTrailing, hq]
        show (Inline.img src :: rest').reverse = q
        rw [← hq, List.reverse_reverse]
      rw [htt]
      refine ⟨h1, h2, ?_⟩
      have hg : q.getLast? = some (Inline.img src) := by
        rw [← List.head?_reverse q, hq]
        rfl
      simp only [noTrailWS, hg]
    | text c s =>
      rw [trimTrailing, hq, trimTrailingRev] at h3 ⊢
      by_cases he : ((c.reverse.dropWhile isWS).reverse).isEmpty = true
      · exfalso
        rw [if_pos he] at h3
        have hle := trimTrailingRev_length_le rest'
        rw [List.length_reverse] at h3
        have hql : q.length = rest'.length + 1 := by
          rw [hq2]
          simp [List.length_append]
        omega
      · rw [if_neg he] at h3 ⊢
        rw [List.reverse_cons]
        have hne : (c.reverse.dropWhile isWS).reverse ≠ [] := by
          intro h0
          rw [h0] at he
          exact he rfl
        have hdecomp : c = (c.reverse.dropWhile isWS).reverse ++
            (c.reverse.takeWhile isWS).reverse := stripTrailing_decomp c
        have hmem : Inline.text c s ∈ q := by
          rw [hq2]
          exact List.mem_append_right _ (List.mem_singleton.mpr rfl)
        have hcfacts := cleanNF_mem_text q none h1 c s hmem
        have hcol' : collapsed ((c.reverse.dropWhile isWS).reverse) = true := by
          have hc2 := hcfacts.2
          rw [hdecomp] at hc2
          exact collapsed_append_left _ _ hc2
        have hhd : ((c.reverse.dropWhile isWS).reverse).head? = c.head? := by
          conv => rhs; rw [hdecomp]
          exact (List.head?_append_of_ne_nil _ hne).symm
        have hnf1 : cleanNF none (rest'.reverse ++ [Inline.text c s]) = true := by
          rw [← hq2]
          exact h1
        refine ⟨cleanNF_replaceLast rest'.reverse none c _ s hnf1 hne hcol' hhd, ?_, ?_⟩
        · cases hrr : rest'.reverse with
          | nil =>
            rw [hrr, List.nil_append] at hq2
            rw [hq2] at h2
            rw [List.nil_append]
            simp only [noLeadWS] at h2 ⊢
            rw [hhd]
            exact h2
          | cons v vs =>
            rw [hq2, hrr, List.cons_append] at h2
            rw [List.cons_append, noLeadWS_cons_congr v
              (vs ++ [Inline.text ((c.reverse.dropWhile isWS).reverse) s])
              (vs ++ [Inline.text c s])]
            exact h2
        · have hlast : (rest'.reverse ++
              [Inline.text ((c.reverse.dropWhile isWS).reverse) s]).getLast? =
              some (Inline.text ((c.reverse.dropWhile isWS).reverse) s) := by
            simp
          simp only [noTrailWS, hlast]
          have hg : ((c.reverse.dropWhile isWS).reverse).getLast? =
              (c.reverse.dropWhile isWS).head? := List.getLast?_reverse _
          cases hdw : c.reverse.dropWhile isWS with
          | nil =>
            exfalso
            rw [hdw] at hne
            exact hne rfl
          | cons a t =>
            have ha := dropWhile_head_false isWS c.reverse a t hdw
            rw [hdw] at hg
            simp only [hg]
            simp [ha]

theorem cleanInlines_of_nf (o : List Inline) (h1 : cleanNF none o = true)
    (h2 : noLeadWS o = true) (h3 : noTrailWS o = true) : cleanInlines o = o := by
  rw [cleanInlines]
  rw [runClean_of_nf o none h1]
  have htl : trimLeading o = o := by
    cases o with
    | nil => rfl
    | cons u rest =>
      cases u with
      | text c s =>
        rw [trimLeading]
        have hcne : c ≠ [] :=
          (cleanNF_mem_text _ none h1 c s (List.mem_cons_self _ _)).1
        cases hc : c with
        | nil => exact absurd hc hcne
        | cons a t =>
          rw [noLeadWS, hc] at h2
          simp only [List.head?] at h2
          have ha : isWS a = false := by
            cases hx : isWS a
            · rfl
            · rw [hx] at h2
              cases h2
          have hdw : (a :: t).dropWhile isWS = a :: t := by
            rw [List.dropWhile_cons, if_neg (by simp [ha])]
          rw [hdw]
          rw [if_neg (by simp)]
      | br => rfl
      | img src => rfl
  rw [htl]
  rw [trimTrailing]
  rcases ho : o.reverse with _ | ⟨u, rest'⟩
  · rw [List.reverse_eq_nil_iff.mp ho]
    rfl
  · have ho2 : o = rest'.reverse ++ [u] := by
      have hc := congrArg List.reverse ho
      rw [List.reverse_reverse, List.reverse_cons] at hc
      exact hc
    cases u with
    | text c s =>
      rw [trimTrailingRev]
      have hcne : c ≠ [] := by
        refine (cleanNF_mem_text _ none h1 c s ?_).1
        rw [ho2]
        exact List.mem_append_right _ (List.mem_singleton.mpr rfl)
      have hgl : o.getLast? = some (Inline.text c s) := by
        rw [← List.head?_reverse o, ho]
        rfl
      simp only [noTrailWS, hgl] at h3
      have hglc : c.getLast? = c.reverse.head? := (List.head?_reverse c).symm
      cases hcr : c.reverse with
      | nil =>
        exfalso
        exact hcne (List.reverse_eq_nil_iff.mp hcr)
      | cons a t =>
        rw [hcr] at hglc
        simp only [List.head?] at hglc
        rw [hglc] at h3
        have ha : isWS a = false := by simpa using h3
        have hdw : (a :: t).dropWhile isWS = a :: t := by
          rw [List.dropWhile_cons, if_neg (by simp [ha])]
        rw [hdw]
        rw [if_neg (by simp)]
        have hback : (a :: t).reverse = c := by
          rw [← hcr, List.reverse_reverse]
        rw [hback]
        show (Inline.text c s :: rest').reverse = o
        rw [← ho, List.reverse_reverse]
    | br =>
      show (Inline.br :: rest').reverse = o
      rw [← ho, List.reverse_reverse]
    | img src =>
      show (Inline.img src :: rest').reverse = o
      rw [← ho, List.reverse_reverse]

/-- C1 counterexample: the Inline Cleaner is not idempotent.  For
`[text "a " {}, text " " {bold}, text " b" {}]` the first pass drops
the emptied bold space but its successor keeps a leading space (the
dropped unit is still consulted as the predecessor), so a second pass
strips one more space and changes the output. -/
theorem cleanInlines_not_idempotent :
    cleanInlines (cleanInlines
      [Inline.text (jstr "a ") [], Inline.text (jstr " ") [Style.bold],
       Inline.text (jstr " b") []]) ≠
      cleanInlines
        [Inline.text (jstr "a ") [], Inline.text (jstr " ") [Style.bold],
         Inline.text (jstr " b") []] := by decide

/-- C1 amended: the Inline Cleaner is idempotent on every inline
sequence from which cleaning drops no unit (its output has the same
length as its input); re-running it on such cleaned content is a no-op.
When cleaning does drop a unit, a second pass may strip a further
leading space across the gap the dropped unit left behind. -/
theorem cleanInlines_idempotent_of_no_drop (l : List Inline)
    (h : (cleanInlines l).length = l.length) :
    cleanInlines (cleanInlines l) = cleanInlines l := by
  have hr := runClean_length_le none l
  have htl := trimLeading_length_le (runClean none l)
  have htt := trimTrailing_length_le (trimLeading (runClean none l))
  have hlen : (trimTrailing (trimLeading (runClean none l))).length = l.length := h
  have h1 : (runClean none l).length = l.length := by omega
  have h2 : (trimLeading (runClean none l)).length = (runClean none l).length := by omega
  have h3 : (trimTrailing (trimLeading (runClean none l))).length =
      (trimLeading (runClean none l)).length := by omega
  have nf1 := runClean_nf l none h1
  obtain ⟨nf2, lead2⟩ := trimLeading_nf (runClean none l) nf1 h2
  obtain ⟨nf3, lead3, trail3⟩ :=
    trimTrailing_nf (trimLeading (runClean none l)) nf2 lead2 h3
  exact cleanInlines_of_nf (cleanInlines l) nf3 lead3 trail3

/-- Witness for C1's amended statement at a concrete input. -/
theorem cleanInlines_idempotent_of_no_drop_witness :
    (cleanInlines [Inline.img none, Inline.text (jstr " a") []]).length = 2 ∧
    cleanInlines (cleanInlines [Inline.img none, Inline.text (jstr " a") []]) =
      cleanInlines [Inline.img none, Inline.text (jstr " a") []] :=
  ⟨by decide,
    cleanInlines_idempotent_of_no_drop [Inline.img none, Inline.text (jstr " a") []]
      (by decide)⟩
